import Mathlib

/-!
Shallow embedding of `src/plagiarism_database.rs` (plagiarism-basic).

Rust `HashMap` partitions are modelled as association lists with
replace-on-insert; `HashSet` fragment sets are modelled as duplicate-free
lists.  Iteration order of a Rust `HashMap` is arbitrary, so the list order
of a partition stands for one possible iteration order; every theorem below
is insensitive to that order.  The panicking `Index` lookups of
`fragments_to_locations` are modelled with `Option`, `none` standing for
the panic branch.
-/

abbrev TextOwnerID := String

/-- Start index (inclusive) and end index (exclusive). -/
abbrev FragmentLocation := Nat × Nat

/-- Modelled from the spec: `Metric` is a tagged variant, `Equal` (exact
fragment string equality) or one of the similarity kinds (e.g. maximum edit
distance `Lev`, minimum overlap ratio `Overlap`); the concrete enum lives
outside `src/`. -/
inductive Metric where
  | Equal : Metric
  | Lev : Metric
  | Overlap : Metric
deriving DecidableEq, Repr

/-- Modelled from the spec: `normalize(text) -> ordered word sequence`
(`clean_text` lives outside `src/`); case/punctuation handling is
unspecified and only determinism is required, so it is modelled as
splitting on spaces and dropping empty tokens. Helper for `clean_text`. -/
def splitSpaces : List Char → List Char → List String
  | [], cur => [String.mk cur.reverse]
  | c :: rest, cur =>
    if c = ' ' then String.mk cur.reverse :: splitSpaces rest []
    else splitSpaces rest (c :: cur)

/-- Modelled from the spec: `normalize(text) -> ordered sequence of word
tokens` (`clean_text` lives outside `src/`): deterministic whitespace
tokenization. -/
def clean_text (text : String) : List String :=
  (splitSpaces text.data []).filter (fun w => w ≠ "")

/-- Joins the words of one n-gram window into a single fragment string,
separated by single spaces (spec glossary: a fragment is a window of `n`
word tokens "represented as a single string", e.g. `"a b"`). -/
def joinWords : List String → String
  | [] => ""
  | [w] => w
  | w :: rest => w ++ " " ++ joinWords rest

/-- Modelled from the spec: `ngrams(words, n) -> ordered sequence of
fragment strings` of length `max(0, len(words) - n + 1)`, element `i`
representing the window starting at word index `i`
(`extract_clean_word_ngrams` lives outside `src/`). -/
def extract_clean_word_ngrams (words : List String) (n : Nat) : List String :=
  (List.range (words.length + 1 - n)).map
    (fun i => joinWords (List.take n (List.drop i words)))

/-- Report for plagiarism between two owners (`PlagiarismResult`). -/
structure PlagiarismResult where
  owner_id1 : TextOwnerID
  owner_id2 : TextOwnerID
  matching_fragments : List (String × String)
  matching_fragments_locations : List (List FragmentLocation × List FragmentLocation)
  trusted_owner1 : Bool
  equal_fragments : Bool
deriving DecidableEq, Repr

/-- A single user's "submission" or text string, broken into fragments
(`TextEntry`); the `HashSet` of fragments is a duplicate-free list and the
`HashMap` of locations an association list. -/
structure TextEntry where
  owner : TextOwnerID
  clean_text_words : List String
  fragments : List String
  fragment_locations : List (String × List FragmentLocation)
deriving DecidableEq, Repr

/-- First-match lookup in an association list: the model of `HashMap`
indexing (`some` the present case, `none` the missing-key/panic case). -/
def assocGet {β : Type} (k : String) : List (String × β) → Option β
  | [] => none
  | (k', v) :: rest => if k' = k then some v else assocGet k rest

/-- Model of `HashMap::insert`: replace the value in place when the key is
present, append otherwise. -/
def assocInsert {β : Type} (k : String) (v : β) : List (String × β) → List (String × β)
  | [] => [(k, v)]
  | (k', v') :: rest =>
    if k' = k then (k, v) :: rest else (k', v') :: assocInsert k v rest

/-- One loop step of `get_textfragments`: push the location onto the
existing vector when the ngram key is present, insert a fresh singleton
vector otherwise. -/
def insertLocation (m : List (String × List FragmentLocation)) (ngram : String)
    (loc : FragmentLocation) : List (String × List FragmentLocation) :=
  match m with
  | [] => [(ngram, [loc])]
  | (k, locs) :: rest =>
    if k = ngram then (k, locs ++ [loc]) :: rest
    else (k, locs) :: insertLocation rest ngram loc

/-- The `for (start_location, ngram) in ngrams.iter().enumerate()` loop of
`get_textfragments`, with `i` the current start location. -/
def buildLocations (n : Nat) : Nat → List String →
    List (String × List FragmentLocation) → List (String × List FragmentLocation)
  | _, [], m => m
  | i, g :: rest, m => buildLocations n (i + 1) rest (insertLocation m g (i, i + n))

/-- Rust `PlagiarismDatabase::get_textfragments`: splits a word sequence into
ngram fragments and builds the fragment → locations map in the same pass. -/
def get_textfragments (words : List String) (n : Nat) :
    List String × List (String × List FragmentLocation) :=
  let ngrams := extract_clean_word_ngrams words n
  (ngrams.dedup, buildLocations n 0 ngrams [])

/-- Stores the corpus of trusted and untrusted strings
(`PlagiarismDatabase`); the two `HashMap` partitions are association
lists. -/
structure PlagiarismDatabase where
  n : Nat
  s : Nat
  metric : Metric
  trusted_texts : List (TextOwnerID × TextEntry)
  untrusted_texts : List (TextOwnerID × TextEntry)
deriving DecidableEq, Repr

/-- Rust `PlagiarismDatabase::new`: stores the configuration and two empty
partitions, with no validation of `n`. -/
def PlagiarismDatabase.new (n s : Nat) (metric : Metric) : PlagiarismDatabase :=
  { n := n, s := s, metric := metric, trusted_texts := [], untrusted_texts := [] }

/-- The `TextEntry` literal built inside `add_trusted_text` /
`add_untrusted_text`. -/
def textEntryFor (owner_id : String) (text : String) (n : Nat) : TextEntry :=
  let clean_text_words := clean_text text
  let fl := get_textfragments clean_text_words n
  { owner := owner_id, clean_text_words := clean_text_words,
    fragments := fl.1, fragment_locations := fl.2 }

/-- Rust `add_trusted_text`: adds a text string as potential plagiarism source
material, replacing any prior entry for that owner. -/
def add_trusted_text (db : PlagiarismDatabase) (owner_id : String) (text : String) :
    PlagiarismDatabase :=
  { db with trusted_texts := assocInsert owner_id (textEntryFor owner_id text db.n) db.trusted_texts }

/-- Rust `add_untrusted_text`: adds a text string as a potential plagiarized
string, replacing any prior entry for that owner. -/
def add_untrusted_text (db : PlagiarismDatabase) (owner_id : String) (text : String) :
    PlagiarismDatabase :=
  { db with untrusted_texts := assocInsert owner_id (textEntryFor owner_id text db.n) db.untrusted_texts }

/-- Rust `get_all_cleantext`: chains the trusted mapping then the untrusted
mapping and collects into one map, so a later (untrusted) entry overwrites
an earlier (trusted) one for the same owner id. -/
def get_all_cleantext (db : PlagiarismDatabase) : List (TextOwnerID × List String) :=
  ((db.trusted_texts.map (fun p => (p.1, p.2.clean_text_words))) ++
    (db.untrusted_texts.map (fun p => (p.1, p.2.clean_text_words)))).foldl
    (fun m p => assocInsert p.1 p.2 m) []

/-- Rust `check_plagiarism_equal`: set intersection of the two fragment sets,
each common fragment emitted as an identical pair. -/
def check_plagiarism_equal (source against : TextEntry) : List (String × String) :=
  let intersect := source.fragments.filter (fun f => against.fragments.contains f)
  if intersect ≠ [] then intersect.map (fun v => (v, v)) else []

/-- Rust `check_plagiarism_other`: the double loop over both fragment sets,
emitting every pair the external oracle `is_plagiarised` accepts. The
oracle lives outside `src/` and is passed as a parameter. -/
def check_plagiarism_other (is_plagiarised : String → String → Metric → Nat → Bool)
    (s : Nat) (source : TextEntry) (metric : Metric) (against : TextEntry) :
    List (String × String) :=
  source.fragments.flatMap (fun source_frag =>
    ((against.fragments.filter (fun against_frag => is_plagiarised source_frag against_frag metric s)).map
      (fun against_frag => (source_frag, against_frag))))

/-- The `match self.metric` dispatch at the top of `run_metrics`. -/
def matching_fragments_of (is_plagiarised : String → String → Metric → Nat → Bool)
    (db : PlagiarismDatabase) (source against : TextEntry) : List (String × String) :=
  match db.metric with
  | Metric.Equal => check_plagiarism_equal source against
  | _ => check_plagiarism_other is_plagiarised db.s source db.metric against

/-- Rust `fragments_to_locations`: looks both owners up in the untrusted
partition and both fragments up in their location maps; `none` models the
panic of the `Index` operator on a missing key. -/
def fragments_to_locations (db : PlagiarismDatabase) (f1 owner1 f2 owner2 : String) :
    Option (List FragmentLocation × List FragmentLocation) :=
  match assocGet owner1 db.untrusted_texts with
  | none => none
  | some e1 =>
    match assocGet f1 e1.fragment_locations with
    | none => none
    | some l1 =>
      match assocGet owner2 db.untrusted_texts with
      | none => none
      | some e2 =>
        match assocGet f2 e2.fragment_locations with
        | none => none
        | some l2 => some (l1, l2)

/-- Rust `fragments_to_locations_trusted`: as `fragments_to_locations` but the
first owner is looked up in the trusted partition. -/
def fragments_to_locations_trusted (db : PlagiarismDatabase) (f1 owner1 f2 owner2 : String) :
    Option (List FragmentLocation × List FragmentLocation) :=
  match assocGet owner1 db.trusted_texts with
  | none => none
  | some e1 =>
    match assocGet f1 e1.fragment_locations with
    | none => none
    | some l1 =>
      match assocGet owner2 db.untrusted_texts with
      | none => none
      | some e2 =>
        match assocGet f2 e2.fragment_locations with
        | none => none
        | some l2 => some (l1, l2)

/-- Rust `run_metrics`: dispatch on the metric, return `none` when no fragment
matches, otherwise resolve every match to its locations (the `getD` default
stands where the Rust code would already have panicked) and assemble the
`PlagiarismResult`. -/
def run_metrics (is_plagiarised : String → String → Metric → Nat → Bool)
    (db : PlagiarismDatabase) (source against : TextEntry) (is_trusted_owner1 : Bool) :
    Option PlagiarismResult :=
  let matching_fragments := matching_fragments_of is_plagiarised db source against
  if matching_fragments = [] then none
  else
    let matching_fragments_locations := matching_fragments.map (fun p =>
      (if is_trusted_owner1 then
        fragments_to_locations_trusted db p.1 source.owner p.2 against.owner
      else
        fragments_to_locations db p.1 source.owner p.2 against.owner).getD ([], []))
    some { owner_id1 := source.owner, owner_id2 := against.owner,
           matching_fragments := matching_fragments,
           matching_fragments_locations := matching_fragments_locations,
           trusted_owner1 := is_trusted_owner1,
           equal_fragments := db.metric = Metric.Equal }

/-- The pair enumeration of `check_untrusted_plagiarism`: outer loop
`enumerate`, inner loop `skip(sourceidx + 1)`. -/
def pairsAfter {α : Type} : List α → List (α × α)
  | [] => []
  | x :: rest => rest.map (fun y => (x, y)) ++ pairsAfter rest

/-- Rust `check_untrusted_plagiarism`: every later-indexed untrusted value
against every earlier-indexed one, keeping the `Some` results. -/
def check_untrusted_plagiarism (is_plagiarised : String → String → Metric → Nat → Bool)
    (db : PlagiarismDatabase) : List PlagiarismResult :=
  (pairsAfter (db.untrusted_texts.map Prod.snd)).filterMap
    (fun p => run_metrics is_plagiarised db p.1 p.2 false)

/-- Rust `check_trusted_plagiarism`: every trusted value against every untrusted
value, keeping the `Some` results. -/
def check_trusted_plagiarism (is_plagiarised : String → String → Metric → Nat → Bool)
    (db : PlagiarismDatabase) : List PlagiarismResult :=
  (db.trusted_texts.map Prod.snd).flatMap (fun source =>
    (db.untrusted_texts.map Prod.snd).filterMap
      (fun against => run_metrics is_plagiarised db source against true))

/-- Occurrence locations of fragment `f` in an ngram list, scanning from
start index `i`: the closed form of what the `get_textfragments` loop
accumulates for the key `f`. -/
def occsFrom (n : Nat) (f : String) : Nat → List String → List FragmentLocation
  | _, [] => []
  | i, g :: rest =>
    if g = f then (i, i + n) :: occsFrom n f (i + 1) rest
    else occsFrom n f (i + 1) rest

/-- The ordered owner pairs that `check_untrusted_plagiarism` feeds to
`run_metrics`: the owner of each enumerated source/against value pair. -/
def compared_owner_pairs (db : PlagiarismDatabase) : List (TextOwnerID × TextOwnerID) :=
  (pairsAfter (db.untrusted_texts.map Prod.snd)).map (fun q => (q.1.owner, q.2.owner))

/-- Last-match lookup in an association list: what a fold of
replace-on-insert operations over the list produces for each key (used to
characterize `get_all_cleantext`, whose later entries overwrite earlier
ones). -/
def assocGetLast {β : Type} (k : String) : List (String × β) → Option β
  | [] => none
  | p :: rest =>
    match assocGetLast k rest with
    | some v => some v
    | none => if p.1 = k then some p.2 else none

/-- A small concrete store used to instantiate the theorems below: two
untrusted owners and one trusted owner, `Equal` metric, `n = 2`. -/
def sampleDB : PlagiarismDatabase :=
  add_trusted_text
    (add_untrusted_text
      (add_untrusted_text (PlagiarismDatabase.new 2 0 Metric.Equal) "u1" "a b c")
      "u2" "a b d")
    "t1" "a b c"

/-- Well-formedness of one `HashMap` partition: keys are pairwise distinct
and every entry records its own key as `owner` (both hold for every
partition built through `add_trusted_text` / `add_untrusted_text`). -/
abbrev partitionWF (m : List (TextOwnerID × TextEntry)) : Prop :=
  (m.map Prod.fst).Nodup ∧ ∀ p ∈ m, p.2.owner = p.1

/-- Well-formedness of a `TextEntry`: every fragment in the set has an
entry in the location map (the `locations.keys == fragments` construction
invariant of `get_textfragments`). -/
abbrev entryWF (e : TextEntry) : Prop :=
  ∀ f ∈ e.fragments, (assocGet f e.fragment_locations).isSome = true

/-- Well-formedness of the whole store: both partitions are well-formed and
every stored entry satisfies the indexer invariant. -/
abbrev storeWF (db : PlagiarismDatabase) : Prop :=
  partitionWF db.trusted_texts ∧ partitionWF db.untrusted_texts ∧
    (∀ p ∈ db.trusted_texts, entryWF p.2) ∧ (∀ p ∈ db.untrusted_texts, entryWF p.2)

theorem assocGet_insertLocation (g : String) (loc : FragmentLocation)
    (m : List (String × List FragmentLocation)) (f : String) :
    assocGet f (insertLocation m g loc) =
      if g = f then some ((assocGet f m).getD [] ++ [loc]) else assocGet f m := by
  induction m with
  | nil => by_cases h : g = f <;> simp [insertLocation, assocGet, h]
  | cons p rest ih =>
    obtain ⟨k, locs⟩ := p
    by_cases hk : k = g
    · subst hk
      by_cases hf : k = f <;> simp [insertLocation, assocGet, hf]
    · by_cases hf : k = f
      · subst hf
        have hgf : ¬ g = k := fun h => hk h.symm
        simp [insertLocation, assocGet, hk, hgf]
      · simp [insertLocation, assocGet, hk, hf, ih]

theorem assocGet_buildLocations (n : Nat) (f : String) (gs : List String) :
    ∀ (i : Nat) (m : List (String × List FragmentLocation)),
      assocGet f (buildLocations n i gs m) =
        match assocGet f m with
        | some L => some (L ++ occsFrom n f i gs)
        | none =>
          if occsFrom n f i gs = [] then none else some (occsFrom n f i gs) := by
  induction gs with
  | nil => intro i m; cases h : assocGet f m <;> simp [buildLocations, occsFrom, h]
  | cons g rest ih =>
    intro i m
    rw [buildLocations, ih (i + 1) (insertLocation m g (i, i + n)),
      assocGet_insertLocation]
    by_cases hg : g = f
    · cases h : assocGet f m <;> simp [occsFrom, hg, h, List.append_assoc]
    · cases h : assocGet f m <;> simp [occsFrom, hg, h]

theorem occsFrom_eq_nil (n : Nat) (f : String) (gs : List String) :
    ∀ i, occsFrom n f i gs = [] ↔ f ∉ gs := by
  induction gs with
  | nil => intro i; simp [occsFrom]
  | cons g rest ih =>
    intro i
    by_cases hg : g = f
    · simp [occsFrom, hg]
    · have hfg : ¬ f = g := fun h => hg h.symm
      simp [occsFrom, hg, ih (i + 1), hfg]

theorem occsFrom_map_range' (n : Nat) (f : String) (w : Nat → String) :
    ∀ (k a : Nat),
      occsFrom n f a ((List.range' a k).map w) =
        ((List.range' a k).filter (fun i => w i = f)).map (fun i => (i, i + n)) := by
  intro k
  induction k with
  | zero => intro a; simp [List.range', occsFrom]
  | succ k ih =>
    intro a
    rw [List.range'_succ]
    by_cases h : w a = f <;> simp [occsFrom, h, ih (a + 1)]

theorem occsFrom_extract (n : Nat) (f : String) (words : List String) :
    occsFrom n f 0 (extract_clean_word_ngrams words n) =
      ((List.range (words.length + 1 - n)).filter
          (fun i => joinWords (List.take n (List.drop i words)) = f)).map
        (fun i => (i, i + n)) := by
  rw [extract_clean_word_ngrams, List.range_eq_range',
    occsFrom_map_range' n f _ (words.length + 1 - n) 0]

/-- Claim C1: for every word sequence `words` and configured `n`,
`get_textfragments words n` returns a fragment set equal to the set of
distinct n-gram strings of `words`, and a location mapping in which each
fragment `f` maps to the ordered list of `(i, i + n)` for every start index
`i` in `[0, len - n]` whose n-gram equals `f`, in increasing order of `i`;
if `len(words) < n` both results are empty and no error occurs; and for
`["a","b","a","b"]` with `n = 2` the fragment set is `{"a b", "b a"}` with
`locations["a b"] = [(0,2),(2,4)]` and `locations["b a"] = [(1,3)]`. -/
theorem claim_C1_fragment_indexer :
    (∀ (words : List String) (n : Nat),
      (∀ f, f ∈ (get_textfragments words n).1 ↔ f ∈ extract_clean_word_ngrams words n) ∧
      (∀ f,
        assocGet f (get_textfragments words n).2 =
          if f ∈ extract_clean_word_ngrams words n then
            some (((List.range (words.length + 1 - n)).filter
                (fun i => joinWords (List.take n (List.drop i words)) = f)).map
              (fun i => (i, i + n)))
          else none) ∧
      (words.length < n →
        (get_textfragments words n).1 = [] ∧ (get_textfragments words n).2 = [])) ∧
    (∀ f, f ∈ (get_textfragments ["a", "b", "a", "b"] 2).1 ↔ (f = "a b" ∨ f = "b a")) ∧
    assocGet "a b" (get_textfragments ["a", "b", "a", "b"] 2).2 = some [(0, 2), (2, 4)] ∧
    assocGet "b a" (get_textfragments ["a", "b", "a", "b"] 2).2 = some [(1, 3)] := by
  constructor
  · intro words n
    refine ⟨?_, ?_, ?_⟩
    · intro f
      simp [get_textfragments, List.mem_dedup]
    · intro f
      have h := assocGet_buildLocations n f (extract_clean_word_ngrams words n) 0 []
      simp only [assocGet] at h
      show assocGet f (buildLocations n 0 (extract_clean_word_ngrams words n) []) = _
      rw [h]
      by_cases hf : f ∈ extract_clean_word_ngrams words n
      · have hne : ¬ occsFrom n f 0 (extract_clean_word_ngrams words n) = [] := by
          rw [occsFrom_eq_nil]
          exact fun h' => h' hf
        simp only [hne, if_false, hf, if_true]
        rw [occsFrom_extract]
      · have hnil : occsFrom n f 0 (extract_clean_word_ngrams words n) = [] :=
          (occsFrom_eq_nil n f _ 0).mpr hf
        simp [hnil, hf]
    · intro hlt
      have h0 : words.length + 1 - n = 0 := by omega
      simp [get_textfragments, extract_clean_word_ngrams, h0, buildLocations]
  · refine ⟨?_, by decide, by decide⟩
    intro f
    rw [show (get_textfragments ["a", "b", "a", "b"] 2).1 = ["b a", "a b"] from by decide]
    simp only [List.mem_cons, List.not_mem_nil, or_false]
    tauto

/-- Witness for C1: the degenerate branch at a concrete input — one word,
`n = 2`, so `len < n` and both outputs are empty. -/
theorem claim_C1_fragment_indexer_witness :
    (get_textfragments ["a"] 2).1 = [] ∧ (get_textfragments ["a"] 2).2 = [] :=
  (claim_C1_fragment_indexer.1 ["a"] 2).2.2 (by decide)

theorem check_plagiarism_equal_eq_map (source against : TextEntry) :
    check_plagiarism_equal source against =
      (source.fragments.filter (fun f => against.fragments.contains f)).map
        (fun v => (v, v)) := by
  by_cases h : source.fragments.filter (fun f => against.fragments.contains f) = [] <;>
    simp [check_plagiarism_equal, h]

theorem mem_check_plagiarism_equal {source against : TextEntry} {fa fb : String} :
    (fa, fb) ∈ check_plagiarism_equal source against ↔
      (fa = fb ∧ fa ∈ source.fragments ∧ fa ∈ against.fragments) := by
  rw [check_plagiarism_equal_eq_map]
  simp only [List.mem_map, List.mem_filter, List.elem_iff, Prod.mk.injEq]
  constructor
  · rintro ⟨v, ⟨hv1, hv2⟩, rfl, rfl⟩
    exact ⟨rfl, hv1, hv2⟩
  · rintro ⟨rfl, h1, h2⟩
    exact ⟨fa, ⟨h1, h2⟩, rfl, rfl⟩

theorem nodup_check_plagiarism_equal (source against : TextEntry)
    (h : source.fragments.Nodup) :
    (check_plagiarism_equal source against).Nodup := by
  rw [check_plagiarism_equal_eq_map]
  refine (h.filter _).map ?_
  intro a b hab
  simpa using congrArg Prod.fst hab

theorem mem_check_plagiarism_other
    {is_plagiarised : String → String → Metric → Nat → Bool} {s : Nat}
    {source against : TextEntry} {metric : Metric} {fa fb : String} :
    (fa, fb) ∈ check_plagiarism_other is_plagiarised s source metric against ↔
      (fa ∈ source.fragments ∧ fb ∈ against.fragments ∧
        is_plagiarised fa fb metric s = true) := by
  unfold check_plagiarism_other
  simp only [List.mem_flatMap, List.mem_map, List.mem_filter, Prod.mk.injEq]
  constructor
  · rintro ⟨sf, hsf, af, ⟨haf, hp⟩, rfl, rfl⟩
    exact ⟨hsf, haf, hp⟩
  · rintro ⟨h1, h2, h3⟩
    exact ⟨fa, h1, fb, ⟨h2, h3⟩, rfl, rfl⟩

/-- Claim C3: under the `Equal` metric the matching-fragment list contains
exactly one pair `(f, f)` for each fragment `f` in the intersection of
`source.fragments` and `against.fragments`; every returned pair has
identical members and no fragment appears in more than one output pair. -/
theorem claim_C3_equal_strategy (source against : TextEntry)
    (hnd : source.fragments.Nodup) :
    (∀ fa fb, (fa, fb) ∈ check_plagiarism_equal source against ↔
      (fa = fb ∧ fa ∈ source.fragments ∧ fa ∈ against.fragments)) ∧
    (∀ p ∈ check_plagiarism_equal source against, p.1 = p.2) ∧
    (check_plagiarism_equal source against).Nodup := by
  refine ⟨fun fa fb => mem_check_plagiarism_equal, ?_,
    nodup_check_plagiarism_equal source against hnd⟩
  intro p hp
  obtain ⟨fa, fb⟩ := p
  exact (mem_check_plagiarism_equal.mp hp).1

/-- Witness for C3: two concrete entries sharing the fragment `"b c"`. -/
theorem claim_C3_equal_strategy_witness :
    ("b c", "b c") ∈
      check_plagiarism_equal (textEntryFor "x" "a b c" 2) (textEntryFor "y" "b c d" 2) :=
  ((claim_C3_equal_strategy (textEntryFor "x" "a b c" 2) (textEntryFor "y" "b c d" 2)
      (by decide)).1 "b c" "b c").mpr (by decide)

/-- Claim C4: for every non-`Equal` metric the matching-fragment list
contains `(fa, fb)` if and only if `fa` is a source fragment, `fb` an
against fragment, and the external oracle `is_plagiarised fa fb metric s`
accepts, with `s` the store's configured cutoff. -/
theorem claim_C4_similarity_strategy
    (is_plagiarised : String → String → Metric → Nat → Bool)
    (db : PlagiarismDatabase) (source against : TextEntry)
    (hm : db.metric ≠ Metric.Equal) :
    ∀ fa fb,
      (fa, fb) ∈ matching_fragments_of is_plagiarised db source against ↔
        (fa ∈ source.fragments ∧ fb ∈ against.fragments ∧
          is_plagiarised fa fb db.metric db.s = true) := by
  intro fa fb
  unfold matching_fragments_of
  cases h : db.metric with
  | Equal => exact absurd h hm
  | Lev => exact mem_check_plagiarism_other
  | Overlap => exact mem_check_plagiarism_other

/-- Witness for C4: a concrete store with the `Lev` metric and an oracle
accepting everything pairs the two cross-partition fragments. -/
theorem claim_C4_similarity_strategy_witness :
    ("a b", "b d") ∈
      matching_fragments_of (fun _ _ _ _ => true) (PlagiarismDatabase.new 2 0 Metric.Lev)
        (textEntryFor "x" "a b" 2) (textEntryFor "y" "b d" 2) :=
  ((claim_C4_similarity_strategy (fun _ _ _ _ => true) (PlagiarismDatabase.new 2 0 Metric.Lev)
      (textEntryFor "x" "a b" 2) (textEntryFor "y" "b d" 2) (by decide)) "a b" "b d").mpr
    (by decide)

theorem mem_pairsAfter {α : Type} {p : α × α} :
    ∀ {l : List α}, p ∈ pairsAfter l → p.1 ∈ l ∧ p.2 ∈ l := by
  intro l
  induction l with
  | nil => intro h; simp [pairsAfter] at h
  | cons x rest ih =>
    intro h
    rw [pairsAfter] at h
    rcases List.mem_append.mp h with h1 | h2
    · obtain ⟨y, hy, hxy⟩ := List.mem_map.mp h1
      cases hxy
      exact ⟨List.mem_cons_self _ _, List.mem_cons_of_mem _ hy⟩
    · obtain ⟨h1', h2'⟩ := ih h2
      exact ⟨List.mem_cons_of_mem _ h1', List.mem_cons_of_mem _ h2'⟩

theorem pairsAfter_fst_ne {α β : Type} (f : α → β) :
    ∀ (l : List α), (l.map f).Nodup → ∀ q ∈ pairsAfter l, f q.1 ≠ f q.2 := by
  intro l
  induction l with
  | nil => intro _ q hq; simp [pairsAfter] at hq
  | cons x rest ih =>
    intro hnd q hq
    rw [List.map_cons, List.nodup_cons] at hnd
    obtain ⟨hx, hrest⟩ := hnd
    rw [pairsAfter] at hq
    rcases List.mem_append.mp hq with h1 | h2
    · obtain ⟨y, hy, hxy⟩ := List.mem_map.mp h1
      cases hxy
      intro he
      exact hx (he ▸ List.mem_map_of_mem f hy)
    · exact ih hrest q h2

theorem pairsAfter_map {α β : Type} (f : α → β) :
    ∀ (l : List α), pairsAfter (l.map f) = (pairsAfter l).map (fun q => (f q.1, f q.2)) := by
  intro l
  induction l with
  | nil => simp [pairsAfter]
  | cons x rest ih =>
    rw [List.map_cons, pairsAfter, pairsAfter, List.map_append, ih, List.map_map,
      List.map_map]
    rfl

theorem pairsAfter_nodup {α : Type} : ∀ {l : List α}, l.Nodup → (pairsAfter l).Nodup := by
  intro l
  induction l with
  | nil => intro _; simp [pairsAfter]
  | cons x rest ih =>
    intro h
    rw [List.nodup_cons] at h
    obtain ⟨hx, hrest⟩ := h
    rw [pairsAfter]
    refine List.Nodup.append ?_ (ih hrest) ?_
    · refine hrest.map ?_
      intro a b hab
      simpa using hab
    · intro p hp1 hp2
      obtain ⟨y, hy, hxy⟩ := List.mem_map.mp hp1
      cases hxy
      exact hx (mem_pairsAfter hp2).1

theorem pairsAfter_mem_orientation {α : Type} :
    ∀ (l : List α), l.Nodup → ∀ a b, a ∈ l → b ∈ l → a ≠ b →
      (((a, b) ∈ pairsAfter l ∧ (b, a) ∉ pairsAfter l) ∨
        ((b, a) ∈ pairsAfter l ∧ (a, b) ∉ pairsAfter l)) := by
  intro l
  induction l with
  | nil => intro _ a b ha _ _; simp at ha
  | cons x rest ih =>
    intro hnd a b ha hb hne
    rw [List.nodup_cons] at hnd
    obtain ⟨hx, hrest⟩ := hnd
    rw [pairsAfter]
    rcases List.mem_cons.mp ha with rfl | ha'
    · have hb' : b ∈ rest := by
        rcases List.mem_cons.mp hb with h | h
        · exact absurd h.symm hne
        · exact h
      left
      refine ⟨List.mem_append_left _ (List.mem_map_of_mem _ hb'), ?_⟩
      intro hmem
      rcases List.mem_append.mp hmem with h1 | h2
      · obtain ⟨y, hy, hxy⟩ := List.mem_map.mp h1
        injection hxy with hxb hya
        exact hx (by rwa [hxb])
      · exact hx (mem_pairsAfter h2).2
    · rcases List.mem_cons.mp hb with rfl | hb'
      · right
        refine ⟨List.mem_append_left _ (List.mem_map_of_mem _ ha'), ?_⟩
        intro hmem
        rcases List.mem_append.mp hmem with h1 | h2
        · obtain ⟨y, hy, hxy⟩ := List.mem_map.mp h1
          injection hxy with hxa hyb
          exact hx (by rwa [hxa])
        · exact hx (mem_pairsAfter h2).2
      · rcases ih hrest a b ha' hb' hne with ⟨h1, h2⟩ | ⟨h1, h2⟩
        · left
          refine ⟨List.mem_append_right _ h1, ?_⟩
          intro hmem
          rcases List.mem_append.mp hmem with hm1 | hm2
          · obtain ⟨y, hy, hxy⟩ := List.mem_map.mp hm1
            injection hxy with hxb hya
            exact hx (by rwa [hxb])
          · exact h2 hm2
        · right
          refine ⟨List.mem_append_right _ h1, ?_⟩
          intro hmem
          rcases List.mem_append.mp hmem with hm1 | hm2
          · obtain ⟨y, hy, hxy⟩ := List.mem_map.mp hm1
            injection hxy with hxa hyb
            exact hx (by rwa [hxa])
          · exact h2 hm2

theorem run_metrics_some_fields
    {is_plagiarised : String → String → Metric → Nat → Bool}
    {db : PlagiarismDatabase} {source against : TextEntry} {b : Bool}
    {r : PlagiarismResult}
    (h : run_metrics is_plagiarised db source against b = some r) :
    r.owner_id1 = source.owner ∧ r.owner_id2 = against.owner ∧
      r.matching_fragments = matching_fragments_of is_plagiarised db source against ∧
      matching_fragments_of is_plagiarised db source against ≠ [] := by
  by_cases hm : matching_fragments_of is_plagiarised db source against = []
  · simp [run_metrics, hm] at h
  · simp only [run_metrics, hm, if_false, Option.some.injEq] at h
    rw [← h]
    exact ⟨rfl, rfl, rfl, hm⟩

/-- Owner projections of a partition's values equal its keys, so they are
pairwise distinct in a well-formed partition. -/
theorem partition_owners_nodup {m : List (TextOwnerID × TextEntry)}
    (hWF : partitionWF m) :
    ((m.map Prod.snd).map TextEntry.owner).Nodup := by
  rw [List.map_map]
  have : m.map (TextEntry.owner ∘ Prod.snd) = m.map Prod.fst :=
    List.map_congr_left (fun p hp => hWF.2 p hp)
  rw [this]
  exact hWF.1

/-- In a well-formed partition, a stored value is determined by its owner. -/
theorem partition_entry_inj {m : List (TextOwnerID × TextEntry)} (hWF : partitionWF m)
    {e1 e2 : TextEntry} (h1 : e1 ∈ m.map Prod.snd) (h2 : e2 ∈ m.map Prod.snd)
    (he : e1.owner = e2.owner) : e1 = e2 :=
  List.inj_on_of_nodup_map (partition_owners_nodup hWF) h1 h2 he

/-- Claim C2: `check_untrusted_plagiarism` compares every unordered pair of
distinct owners in the untrusted partition exactly once — no owner against
itself, no pair in both orders (the enumerated pair list is duplicate-free
and contains exactly one orientation of each distinct owner pair) — and
consequently no returned result has `owner_id1 = owner_id2`. -/
theorem claim_C2_untrusted_pair_enumeration
    (is_plagiarised : String → String → Metric → Nat → Bool)
    (db : PlagiarismDatabase) (hWF : partitionWF db.untrusted_texts) :
    (∀ q ∈ pairsAfter (db.untrusted_texts.map Prod.snd), q.1.owner ≠ q.2.owner) ∧
    (compared_owner_pairs db).Nodup ∧
    (∀ o1 o2, o1 ∈ (db.untrusted_texts.map Prod.snd).map TextEntry.owner →
      o2 ∈ (db.untrusted_texts.map Prod.snd).map TextEntry.owner → o1 ≠ o2 →
      (((o1, o2) ∈ compared_owner_pairs db ∧ (o2, o1) ∉ compared_owner_pairs db) ∨
        ((o2, o1) ∈ compared_owner_pairs db ∧ (o1, o2) ∉ compared_owner_pairs db))) ∧
    (∀ r ∈ check_untrusted_plagiarism is_plagiarised db, r.owner_id1 ≠ r.owner_id2) := by
  have hnd := partition_owners_nodup hWF
  have hcomp : compared_owner_pairs db =
      pairsAfter ((db.untrusted_texts.map Prod.snd).map TextEntry.owner) := by
    rw [compared_owner_pairs, pairsAfter_map TextEntry.owner (db.untrusted_texts.map Prod.snd)]
  refine ⟨?_, ?_, ?_, ?_⟩
  · exact pairsAfter_fst_ne TextEntry.owner _ hnd
  · rw [hcomp]
    exact pairsAfter_nodup hnd
  · intro o1 o2 h1 h2 hne
    rw [hcomp]
    exact pairsAfter_mem_orientation _ hnd o1 o2 h1 h2 hne
  · intro r hr
    unfold check_untrusted_plagiarism at hr
    obtain ⟨q, hq, hs⟩ := List.mem_filterMap.mp hr
    obtain ⟨h1, h2, _, _⟩ := run_metrics_some_fields hs
    rw [h1, h2]
    exact pairsAfter_fst_ne TextEntry.owner _ hnd q hq

/-- Witness for C2: in the concrete store, the distinct untrusted owners
`"u1"` and `"u2"` are compared in exactly one orientation. -/
theorem claim_C2_untrusted_pair_enumeration_witness :
    ((("u1", "u2") ∈ compared_owner_pairs sampleDB ∧
        ("u2", "u1") ∉ compared_owner_pairs sampleDB) ∨
      (("u2", "u1") ∈ compared_owner_pairs sampleDB ∧
        ("u1", "u2") ∉ compared_owner_pairs sampleDB)) :=
  (claim_C2_untrusted_pair_enumeration (fun _ _ _ _ => false) sampleDB
    (by decide)).2.2.1 "u1" "u2" (by decide) (by decide) (by decide)

/-- Claim C5: when the Matching Engine returns an empty pair sequence for
an enumerated owner pair, `run_metrics` returns `None` and no
`PlagiarismResult` for that pair appears in the sequence returned by
`check_untrusted_plagiarism` or `check_trusted_plagiarism`. -/
theorem claim_C5_absence_of_evidence
    (is_plagiarised : String → String → Metric → Nat → Bool)
    (db : PlagiarismDatabase) (hU : partitionWF db.untrusted_texts)
    (hT : partitionWF db.trusted_texts) :
    (∀ source against b, matching_fragments_of is_plagiarised db source against = [] →
      run_metrics is_plagiarised db source against b = none) ∧
    (∀ source against, (source, against) ∈ pairsAfter (db.untrusted_texts.map Prod.snd) →
      matching_fragments_of is_plagiarised db source against = [] →
      ∀ r ∈ check_untrusted_plagiarism is_plagiarised db,
        ¬(r.owner_id1 = source.owner ∧ r.owner_id2 = against.owner)) ∧
    (∀ source against, source ∈ db.trusted_texts.map Prod.snd →
      against ∈ db.untrusted_texts.map Prod.snd →
      matching_fragments_of is_plagiarised db source against = [] →
      ∀ r ∈ check_trusted_plagiarism is_plagiarised db,
        ¬(r.owner_id1 = source.owner ∧ r.owner_id2 = against.owner)) := by
  have hnone : ∀ source against b,
      matching_fragments_of is_plagiarised db source against = [] →
      run_metrics is_plagiarised db source against b = none := by
    intro source against b h
    simp [run_metrics, h]
  refine ⟨hnone, ?_, ?_⟩
  · intro source against hpair hempty r hr ho
    unfold check_untrusted_plagiarism at hr
    obtain ⟨q, hq, hs⟩ := List.mem_filterMap.mp hr
    obtain ⟨h1, h2, _, _⟩ := run_metrics_some_fields hs
    have hq1 : q.1 = source :=
      partition_entry_inj hU (mem_pairsAfter hq).1 (mem_pairsAfter hpair).1
        (by rw [← h1, ho.1])
    have hq2 : q.2 = against :=
      partition_entry_inj hU (mem_pairsAfter hq).2 (mem_pairsAfter hpair).2
        (by rw [← h2, ho.2])
    have := hnone q.1 q.2 false (by rw [hq1, hq2]; exact hempty)
    rw [this] at hs
    exact Option.noConfusion hs
  · intro source against hsrc hag hempty r hr ho
    unfold check_trusted_plagiarism at hr
    obtain ⟨s, hsmem, hr'⟩ := List.mem_flatMap.mp hr
    obtain ⟨a, hamem, hs⟩ := List.mem_filterMap.mp hr'
    obtain ⟨h1, h2, _, _⟩ := run_metrics_some_fields hs
    have hq1 : s = source := partition_entry_inj hT hsmem hsrc (by rw [← h1, ho.1])
    have hq2 : a = against := partition_entry_inj hU hamem hag (by rw [← h2, ho.2])
    have := hnone s a true (by rw [hq1, hq2]; exact hempty)
    rw [this] at hs
    exact Option.noConfusion hs

/-- Witness for C5: two entries with no shared fragments yield no result
from `run_metrics` in the concrete store. -/
theorem claim_C5_absence_of_evidence_witness :
    run_metrics (fun _ _ _ _ => false) sampleDB (textEntryFor "p" "x y z" 2)
      (textEntryFor "q" "m n o" 2) false = none :=
  (claim_C5_absence_of_evidence (fun _ _ _ _ => false) sampleDB (by decide) (by decide)).1
    (textEntryFor "p" "x y z" 2) (textEntryFor "q" "m n o" 2) false (by decide)

theorem mem_matching_fragments
    {is_plagiarised : String → String → Metric → Nat → Bool}
    {db : PlagiarismDatabase} {source against : TextEntry} {fa fb : String}
    (h : (fa, fb) ∈ matching_fragments_of is_plagiarised db source against) :
    fa ∈ source.fragments ∧ fb ∈ against.fragments := by
  revert h
  unfold matching_fragments_of
  cases db.metric with
  | Equal =>
    intro h
    obtain ⟨heq, h1, h2⟩ := mem_check_plagiarism_equal.mp h
    subst heq
    exact ⟨h1, h2⟩
  | Lev =>
    intro h
    obtain ⟨h1, h2, _⟩ := mem_check_plagiarism_other.mp h
    exact ⟨h1, h2⟩
  | Overlap =>
    intro h
    obtain ⟨h1, h2, _⟩ := mem_check_plagiarism_other.mp h
    exact ⟨h1, h2⟩

theorem assocGet_partition {m : List (TextOwnerID × TextEntry)} :
    partitionWF m → ∀ {e : TextEntry}, e ∈ m.map Prod.snd → assocGet e.owner m = some e := by
  induction m with
  | nil => intro _ e he; simp at he
  | cons p rest ih =>
    intro hWF e he
    obtain ⟨hnd, hown⟩ := hWF
    rw [List.map_cons, List.nodup_cons] at hnd
    obtain ⟨hp, hrest⟩ := hnd
    rw [List.map_cons, List.mem_cons] at he
    rcases he with rfl | he'
    · have hpe : p.2.owner = p.1 := hown p (List.mem_cons_self _ _)
      rw [assocGet.eq_def]
      cases p with
      | mk k v => simp_all
    · obtain ⟨q, hq, rfl⟩ := List.mem_map.mp he'
      have hq1 : q.2.owner = q.1 := hown q (List.mem_cons_of_mem _ hq)
      have hne : ¬ p.1 = q.2.owner := by
        rw [hq1]
        intro hcontra
        exact hp (hcontra ▸ List.mem_map_of_mem Prod.fst hq)
      rw [assocGet.eq_def]
      cases p with
      | mk k v =>
        simp only [] at hne ⊢
        rw [if_neg hne]
        exact ih ⟨hrest, fun r hr => hown r (List.mem_cons_of_mem _ hr)⟩
          (List.mem_map_of_mem Prod.snd hq)

theorem entryWF_of_mem {m : List (TextOwnerID × TextEntry)}
    (hall : ∀ p ∈ m, entryWF p.2) {e : TextEntry} (he : e ∈ m.map Prod.snd) :
    entryWF e := by
  obtain ⟨q, hq, rfl⟩ := List.mem_map.mp he
  exact hall q hq

/-- Claim C6: for every pair `(fa, fb)` the Matching Engine returns for
entries stored in the partitions being compared, all lookups performed
during location resolution succeed — the missing-key (panic) branch of
`fragments_to_locations` / `fragments_to_locations_trusted` is
unreachable. -/
theorem claim_C6_location_lookup_safety
    (is_plagiarised : String → String → Metric → Nat → Bool)
    (db : PlagiarismDatabase) (hWF : storeWF db) :
    (∀ source against, source ∈ db.untrusted_texts.map Prod.snd →
      against ∈ db.untrusted_texts.map Prod.snd →
      ∀ p ∈ matching_fragments_of is_plagiarised db source against,
        (fragments_to_locations db p.1 source.owner p.2 against.owner).isSome = true) ∧
    (∀ source against, source ∈ db.trusted_texts.map Prod.snd →
      against ∈ db.untrusted_texts.map Prod.snd →
      ∀ p ∈ matching_fragments_of is_plagiarised db source against,
        (fragments_to_locations_trusted db p.1 source.owner p.2 against.owner).isSome = true) := by
  obtain ⟨hT, hU, hTe, hUe⟩ := hWF
  constructor
  · intro source against hs ha p hp
    obtain ⟨fa, fb⟩ := p
    obtain ⟨hfa, hfb⟩ := mem_matching_fragments hp
    have e1 : assocGet source.owner db.untrusted_texts = some source := assocGet_partition hU hs
    have e2 : assocGet against.owner db.untrusted_texts = some against := assocGet_partition hU ha
    obtain ⟨l1, hl1⟩ := Option.isSome_iff_exists.mp (entryWF_of_mem hUe hs fa hfa)
    obtain ⟨l2, hl2⟩ := Option.isSome_iff_exists.mp (entryWF_of_mem hUe ha fb hfb)
    simp [fragments_to_locations, e1, e2, hl1, hl2]
  · intro source against hs ha p hp
    obtain ⟨fa, fb⟩ := p
    obtain ⟨hfa, hfb⟩ := mem_matching_fragments hp
    have e1 : assocGet source.owner db.trusted_texts = some source := assocGet_partition hT hs
    have e2 : assocGet against.owner db.untrusted_texts = some against := assocGet_partition hU ha
    obtain ⟨l1, hl1⟩ := Option.isSome_iff_exists.mp (entryWF_of_mem hTe hs fa hfa)
    obtain ⟨l2, hl2⟩ := Option.isSome_iff_exists.mp (entryWF_of_mem hUe ha fb hfb)
    simp [fragments_to_locations_trusted, e1, e2, hl1, hl2]

/-- Witness for C6: location resolution for the shared fragment `"a b"` of
the two concrete untrusted entries succeeds. -/
theorem claim_C6_location_lookup_safety_witness :
    (fragments_to_locations sampleDB "a b" (textEntryFor "u1" "a b c" 2).owner "a b"
      (textEntryFor "u2" "a b d" 2).owner).isSome = true :=
  (claim_C6_location_lookup_safety (fun _ _ _ _ => false) sampleDB (by decide)).1
    (textEntryFor "u1" "a b c" 2) (textEntryFor "u2" "a b d" 2) (by decide) (by decide)
    ("a b", "a b") (by decide)

theorem assocGet_assocInsert_self {β : Type} (k : String) (v : β) :
    ∀ (m : List (String × β)), assocGet k (assocInsert k v m) = some v := by
  intro m
  induction m with
  | nil => simp [assocInsert, assocGet]
  | cons p rest ih =>
    obtain ⟨k', v'⟩ := p
    by_cases h : k' = k <;> simp [assocInsert, assocGet, h, ih]

theorem assocGet_assocInsert_ne {β : Type} (k o : String) (v : β) (hne : o ≠ k) :
    ∀ (m : List (String × β)), assocGet o (assocInsert k v m) = assocGet o m := by
  have hko : ¬ k = o := fun h => hne h.symm
  intro m
  induction m with
  | nil => simp [assocInsert, assocGet, hko]
  | cons p rest ih =>
    obtain ⟨k', v'⟩ := p
    by_cases h : k' = k
    · subst h
      simp [assocInsert, assocGet, hko]
    · by_cases h' : k' = o <;> simp [assocInsert, assocGet, h, h', hne, ih]

theorem keys_assocInsert_mem {β : Type} (k : String) (v : β) :
    ∀ m : List (String × β), k ∈ m.map Prod.fst →
      (assocInsert k v m).map Prod.fst = m.map Prod.fst := by
  intro m
  induction m with
  | nil => intro h; simp at h
  | cons p rest ih =>
    intro hmem
    obtain ⟨k', v'⟩ := p
    by_cases h : k' = k
    · subst h
      simp [assocInsert]
    · rw [List.map_cons, List.mem_cons] at hmem
      rcases hmem with rfl | hmem'
      · exact absurd rfl h
      · simp [assocInsert, h, ih hmem']

/-- Claim C7: re-adding an owner id already present in a partition with new
text replaces the prior `TextEntry` — the lookup afterwards returns exactly
the entry built from the new text, the key multiset is unchanged (no second
entry), and every other owner's entry is untouched; symmetrically for both
partitions. -/
theorem claim_C7_overwrite_semantics (db : PlagiarismDatabase) (owner_id text : String) :
    (assocGet owner_id (add_trusted_text db owner_id text).trusted_texts =
        some (textEntryFor owner_id text db.n) ∧
      (owner_id ∈ db.trusted_texts.map Prod.fst →
        (add_trusted_text db owner_id text).trusted_texts.map Prod.fst =
          db.trusted_texts.map Prod.fst) ∧
      (∀ o, o ≠ owner_id →
        assocGet o (add_trusted_text db owner_id text).trusted_texts =
          assocGet o db.trusted_texts)) ∧
    (assocGet owner_id (add_untrusted_text db owner_id text).untrusted_texts =
        some (textEntryFor owner_id text db.n) ∧
      (owner_id ∈ db.untrusted_texts.map Prod.fst →
        (add_untrusted_text db owner_id text).untrusted_texts.map Prod.fst =
          db.untrusted_texts.map Prod.fst) ∧
      (∀ o, o ≠ owner_id →
        assocGet o (add_untrusted_text db owner_id text).untrusted_texts =
          assocGet o db.untrusted_texts)) := by
  refine ⟨⟨?_, ?_, ?_⟩, ⟨?_, ?_, ?_⟩⟩
  · exact assocGet_assocInsert_self owner_id _ db.trusted_texts
  · exact keys_assocInsert_mem owner_id _ db.trusted_texts
  · intro o ho
    exact assocGet_assocInsert_ne owner_id o _ ho db.trusted_texts
  · exact assocGet_assocInsert_self owner_id _ db.untrusted_texts
  · exact keys_assocInsert_mem owner_id _ db.untrusted_texts
  · intro o ho
    exact assocGet_assocInsert_ne owner_id o _ ho db.untrusted_texts

/-- Witness for C7: overwriting the existing untrusted owner `"u1"` in the
concrete store yields the new entry and keeps the key list unchanged. -/
theorem claim_C7_overwrite_semantics_witness :
    assocGet "u1" (add_untrusted_text sampleDB "u1" "x y z").untrusted_texts =
      some (textEntryFor "u1" "x y z" 2) ∧
    (add_untrusted_text sampleDB "u1" "x y z").untrusted_texts.map Prod.fst =
      sampleDB.untrusted_texts.map Prod.fst :=
  ⟨(claim_C7_overwrite_semantics sampleDB "u1" "x y z").2.1,
    (claim_C7_overwrite_semantics sampleDB "u1" "x y z").2.2.1 (by decide)⟩

theorem assocGet_isSome_iff_mem {β : Type} (k : String) :
    ∀ l : List (String × β), (assocGet k l).isSome = true ↔ k ∈ l.map Prod.fst := by
  intro l
  induction l with
  | nil => simp [assocGet]
  | cons p rest ih =>
    obtain ⟨k', v⟩ := p
    by_cases hp : k' = k
    · simp [assocGet, hp]
    · have hkp : ¬ k = k' := fun h => hp h.symm
      simp [assocGet, hp, ih, hkp]

theorem assocGet_foldl_insert {β : Type} (k : String) :
    ∀ (l m0 : List (String × β)),
      assocGet k (l.foldl (fun m p => assocInsert p.1 p.2 m) m0) =
        match assocGetLast k l with
        | some v => some v
        | none => assocGet k m0 := by
  intro l
  induction l with
  | nil => intro m0; simp [assocGetLast]
  | cons p rest ih =>
    intro m0
    rw [List.foldl_cons, ih]
    cases hl : assocGetLast k rest with
    | some v => simp [assocGetLast, hl]
    | none =>
      simp only [assocGetLast, hl]
      by_cases hp : p.1 = k
      · rw [if_pos hp, hp]
        exact assocGet_assocInsert_self k p.2 m0
      · rw [if_neg hp]
        exact assocGet_assocInsert_ne p.1 k p.2 (fun h => hp h.symm) m0

theorem assocGetLast_append {β : Type} (k : String) :
    ∀ (l1 l2 : List (String × β)),
      assocGetLast k (l1 ++ l2) =
        match assocGetLast k l2 with
        | some v => some v
        | none => assocGetLast k l1 := by
  intro l1 l2
  induction l1 with
  | nil => cases h : assocGetLast k l2 <;> simp [assocGetLast, h]
  | cons p rest ih =>
    rw [List.cons_append, assocGetLast, ih]
    cases h2 : assocGetLast k l2 <;> cases h1 : assocGetLast k rest <;>
      simp [assocGetLast, h1, h2]

theorem assocGetLast_eq_assocGet {β : Type} (k : String) :
    ∀ (l : List (String × β)), (l.map Prod.fst).Nodup → assocGetLast k l = assocGet k l := by
  intro l
  induction l with
  | nil => intro _; rfl
  | cons p rest ih =>
    intro hnd
    rw [List.map_cons, List.nodup_cons] at hnd
    obtain ⟨hp, hrest⟩ := hnd
    obtain ⟨k', v⟩ := p
    rw [assocGetLast, ih hrest]
    by_cases hpk : k' = k
    · subst hpk
      have hnone : assocGet k' rest = none := by
        cases h : assocGet k' rest with
        | none => rfl
        | some w =>
          exact absurd ((assocGet_isSome_iff_mem k' rest).mp (by simp [h])) hp
      simp [assocGet, hnone]
    · cases h : assocGet k rest <;> simp [assocGet, hpk, h]

theorem assocGet_map_value {β γ : Type} (k : String) (g : β → γ) :
    ∀ l : List (String × β),
      assocGet k (l.map (fun p => (p.1, g p.2))) = (assocGet k l).map g := by
  intro l
  induction l with
  | nil => rfl
  | cons p rest ih =>
    obtain ⟨k', v⟩ := p
    by_cases h : k' = k <;> simp [assocGet, h, ih]

/-- Claim C8 (on the bug side): `PlagiarismDatabase::new` performs no
validation at all, so constructing the store with `n = 0` is not rejected:
it returns the fully usable record below, and texts can then be added to
it — contradicting the spec's requirement that `n = 0` be rejected at
construction time with a configuration error. -/
theorem claim_C8_new_does_not_reject_zero_n :
    PlagiarismDatabase.new 0 0 Metric.Equal =
      { n := 0, s := 0, metric := Metric.Equal, trusted_texts := [],
        untrusted_texts := [] } ∧
    (add_untrusted_text (PlagiarismDatabase.new 0 0 Metric.Equal) "u1" "a b").untrusted_texts ≠
      [] := by
  exact ⟨rfl, by decide⟩

/-- Claim C9: `get_all_cleantext` merges both partitions — its key set is
the union of the trusted and untrusted owner ids, each mapped to that
owner's word sequence — and when an owner id exists in both partitions the
untrusted partition's word sequence wins, deterministically. -/
theorem claim_C9_merged_cleantext (db : PlagiarismDatabase)
    (hT : (db.trusted_texts.map Prod.fst).Nodup)
    (hU : (db.untrusted_texts.map Prod.fst).Nodup) :
    (∀ o, (assocGet o (get_all_cleantext db)).isSome = true ↔
      (o ∈ db.trusted_texts.map Prod.fst ∨ o ∈ db.untrusted_texts.map Prod.fst)) ∧
    (∀ o e, assocGet o db.untrusted_texts = some e →
      assocGet o (get_all_cleantext db) = some e.clean_text_words) ∧
    (∀ o e, assocGet o db.untrusted_texts = none →
      assocGet o db.trusted_texts = some e →
      assocGet o (get_all_cleantext db) = some e.clean_text_words) := by
  have hkU2 : (db.untrusted_texts.map (fun p => (p.1, p.2.clean_text_words))).map Prod.fst =
      db.untrusted_texts.map Prod.fst := by
    rw [List.map_map]
    exact List.map_congr_left (fun p _ => rfl)
  have hkT2 : (db.trusted_texts.map (fun p => (p.1, p.2.clean_text_words))).map Prod.fst =
      db.trusted_texts.map Prod.fst := by
    rw [List.map_map]
    exact List.map_congr_left (fun p _ => rfl)
  have hmain : ∀ o, assocGet o (get_all_cleantext db) =
      match assocGet o (db.untrusted_texts.map (fun p => (p.1, p.2.clean_text_words))) with
      | some v => some v
      | none => assocGet o (db.trusted_texts.map (fun p => (p.1, p.2.clean_text_words))) := by
    intro o
    rw [get_all_cleantext, assocGet_foldl_insert, assocGetLast_append,
      assocGetLast_eq_assocGet o _ (hkU2 ▸ hU),
      assocGetLast_eq_assocGet o _ (hkT2 ▸ hT)]
    cases h1 : assocGet o (db.untrusted_texts.map (fun p => (p.1, p.2.clean_text_words))) <;>
      cases h2 : assocGet o (db.trusted_texts.map (fun p => (p.1, p.2.clean_text_words))) <;>
        simp [assocGet, h1, h2]
  refine ⟨?_, ?_, ?_⟩
  · intro o
    rw [hmain o]
    cases h1 : assocGet o (db.untrusted_texts.map (fun p => (p.1, p.2.clean_text_words))) with
    | some v =>
      refine iff_of_true rfl (Or.inr ?_)
      rw [← hkU2, ← assocGet_isSome_iff_mem]
      simp [h1]
    | none =>
      have hnotU : o ∉ db.untrusted_texts.map Prod.fst := by
        intro hm
        have := (assocGet_isSome_iff_mem o
          (db.untrusted_texts.map (fun p => (p.1, p.2.clean_text_words)))).mpr
          (by rw [hkU2]; exact hm)
        rw [h1] at this
        simp at this
      rw [show (assocGet o
            (db.trusted_texts.map (fun p => (p.1, p.2.clean_text_words)))).isSome = true ↔
          o ∈ db.trusted_texts.map Prod.fst from by rw [assocGet_isSome_iff_mem, hkT2]]
      constructor
      · exact Or.inl
      · rintro (h | h)
        · exact h
        · exact absurd h hnotU
  · intro o e he
    rw [hmain o, assocGet_map_value, he]
    rfl
  · intro o e hnone hsome
    rw [hmain o, assocGet_map_value, hnone, assocGet_map_value, hsome]
    rfl

/-- Witness for C9: with owner `"u1"` present in both partitions of the
concrete store, the merged view returns the untrusted partition's words. -/
theorem claim_C9_merged_cleantext_witness :
    assocGet "u1" (get_all_cleantext (add_trusted_text sampleDB "u1" "p q r")) =
      some (textEntryFor "u1" "a b c" 2).clean_text_words :=
  (claim_C9_merged_cleantext (add_trusted_text sampleDB "u1" "p q r") (by decide)
    (by decide)).2.1 "u1" (textEntryFor "u1" "a b c" 2) (by decide)

/-- Claim C10: `check_trusted_plagiarism` applies no self-pair exclusion:
with the same owner id `"x"` inserted into both partitions with identical
text under the `Equal` metric, it returns a `PlagiarismResult` whose
`owner_id1` equals `owner_id2`. -/
theorem claim_C10_trusted_self_pair :
    ∃ r ∈ check_trusted_plagiarism (fun _ _ _ _ => false)
      (add_trusted_text
        (add_untrusted_text (PlagiarismDatabase.new 2 0 Metric.Equal) "x" "a b c")
        "x" "a b c"),
      r.owner_id1 = r.owner_id2 := by
  decide
